import Mathlib

/-!
# Verification of the Merton Council bin-collection extraction engine

Shallow embedding of the two `parse_data` variants of the repository:

* `uk_bin_collection/uk_bin_collection/councils/MertonCouncil.py` — the
  HTML/Selenium variant.  Selenium acquisition, DOM-ready waiting and
  BeautifulSoup element queries are the external boundary; the embedding
  starts from the per-service data those queries return (`Service`,
  `InfoElem`) and models lines 106–225 of the file.
* `custom_components/uk_bin_collection/councils copy/MertonCouncil.py` —
  the ICS variant.  Network fetch and the `ics` library's calendar parse
  are the external boundary; the embedding starts from the parsed events
  (`Event`) and models lines 53–77.

Machine dates are triples of naturals; strings are Lean `String`s and all
string operations are re-implemented structurally over `String.data` so
that concrete runs reduce inside the kernel.  Python `datetime.now()` is
the `Now` structure: a calendar date plus a seconds-of-day component,
because the source compares a midnight `datetime` against `datetime.now()`
directly (time component included).
-/

/-! ## Character and string utilities (ASCII, as used by the scraper) -/

def charToLower (c : Char) : Char :=
  if 65 ≤ c.toNat ∧ c.toNat ≤ 90 then Char.ofNat (c.toNat + 32) else c

def strLower (s : String) : String :=
  String.mk (s.data.map charToLower)

/-- Python whitespace stripped by `str.strip()` (ASCII subset). -/
def isSpaceChar (c : Char) : Bool :=
  c == ' ' || c == '\t' || c == '\n' || c == '\r' || c == '\x0b' || c == '\x0c'

def trimList (cs : List Char) : List Char :=
  ((cs.dropWhile isSpaceChar).reverse.dropWhile isSpaceChar).reverse

def strTrim (s : String) : String :=
  String.mk (trimList s.data)

def isPrefixList : List Char → List Char → Bool
  | [], _ => true
  | _ :: _, [] => false
  | a :: as, b :: bs => a == b && isPrefixList as bs

def isInfixList (needle : List Char) : List Char → Bool
  | [] => isPrefixList needle []
  | c :: rest => isPrefixList needle (c :: rest) || isInfixList needle rest

/-- Python `needle in hay` on strings. -/
def strContains (hay needle : String) : Bool :=
  isInfixList needle.data hay.data

/-- When `needle` is a prefix of `hay`, the remainder after it. -/
def stripPrefixList : List Char → List Char → Option (List Char)
  | [], hay => some hay
  | _ :: _, [] => none
  | a :: as, b :: bs => if a == b then stripPrefixList as bs else none

/-- Core of Python `str.replace` (replace all, left to right, not
overlapping); fuel-driven so it reduces structurally. -/
def replaceFuel (needle repl : List Char) : Nat → List Char → List Char
  | _, [] => []
  | 0, hay => hay
  | fuel + 1, c :: rest =>
    match stripPrefixList needle (c :: rest) with
    | some remainder => repl ++ replaceFuel needle repl fuel remainder
    | none => c :: replaceFuel needle repl fuel rest

/-- Python `s.replace(pat, sub)` (our patterns are never empty). -/
def strReplace (s pat sub : String) : String :=
  String.mk (replaceFuel pat.data sub.data s.data.length s.data)

/-- Everything after the first occurrence of `sep`; models
`text.split(sep, 1)[1]` (callers guard that `sep` occurs). -/
def afterFirstChar (sep : Char) : List Char → List Char
  | [] => []
  | c :: rest => if c == sep then rest else afterFirstChar sep rest

/-- Python `str.split(sep)` into (possibly empty) chunks. -/
def splitOnChar (sep : Char) : List Char → List (List Char)
  | [] => [[]]
  | c :: rest =>
    let r := splitOnChar sep rest
    if c == sep then [] :: r
    else
      match r with
      | [] => [[c]]
      | t :: ts => (c :: t) :: ts

/-! ## Decimal digits -/

def isDigitChar (c : Char) : Bool :=
  48 ≤ c.toNat && c.toNat ≤ 57

def digitVal (c : Char) : Nat := c.toNat - 48

def digitChar (d : Nat) : Char := Char.ofNat (48 + d)

/-- Numeric value of an all-digit token (none on empty or non-digit),
modelling the conversion a `strptime` directive applies to its match. -/
def parseNatList (cs : List Char) : Option Nat :=
  if cs ≠ [] ∧ cs.all isDigitChar then
    some (cs.foldl (fun a c => a * 10 + digitVal c) 0)
  else none

/-- Decimal digits of `n` most-significant first, fuel-driven
(`natChars` supplies enough fuel). -/
def natCharsAux : Nat → Nat → List Char
  | _, 0 => []
  | 0, _ => []
  | fuel + 1, n => natCharsAux fuel (n / 10) ++ [digitChar (n % 10)]

def natChars (n : Nat) : List Char :=
  if n = 0 then ['0'] else natCharsAux n n

/-- Left-pad with '0' to width `k`. -/
def padTo (k : Nat) (cs : List Char) : List Char :=
  List.replicate (k - cs.length) '0' ++ cs

/-! ## Dates, validity, order -/

structure Date where
  year : Nat
  month : Nat
  day : Nat
deriving DecidableEq

def isLeap (y : Nat) : Bool :=
  y % 4 = 0 && (y % 100 ≠ 0 || y % 400 = 0)

def daysInMonth (y m : Nat) : Nat :=
  if m = 2 then (if isLeap y then 29 else 28)
  else if m = 4 ∨ m = 6 ∨ m = 9 ∨ m = 11 then 30
  else 31

/-- The validation Python's `datetime` constructor performs
(`MINYEAR ≤ year ≤ MAXYEAR`, month and day ranges). -/
def mkDate (y m d : Nat) : Option Date :=
  if 1 ≤ y ∧ y ≤ 9999 ∧ 1 ≤ m ∧ m ≤ 12 ∧ 1 ≤ d ∧ d ≤ daysInMonth y m then
    some ⟨y, m, d⟩
  else none

def ValidDate (d : Date) : Prop :=
  1 ≤ d.year ∧ d.year ≤ 9999 ∧ 1 ≤ d.month ∧ d.month ≤ 12 ∧
    1 ≤ d.day ∧ d.day ≤ daysInMonth d.year d.month

instance (d : Date) : Decidable (ValidDate d) := by
  unfold ValidDate; infer_instance

def dateLt (a b : Date) : Bool :=
  a.year < b.year ∨
    (a.year = b.year ∧ (a.month < b.month ∨ (a.month = b.month ∧ a.day < b.day)))

def dateLe (a b : Date) : Bool :=
  dateLt a b || a == b

/-- `datetime.now()`: a calendar date plus the time of day in seconds
(`secs = 0` is exactly midnight).  The source compares a parsed date,
whose time component is midnight, against the full `datetime.now()`
value, so the time of day is observable. -/
structure Now where
  year : Nat
  month : Nat
  day : Nat
  secs : Nat
deriving DecidableEq

def dateOfNow (n : Now) : Date := ⟨n.year, n.month, n.day⟩

/-- `parsed_date < datetime.now()` where `parsed_date` is `d` at
midnight: lexicographic on (date, time). -/
def dtLtNow (d : Date) (n : Now) : Bool :=
  dateLt d (dateOfNow n) || (d == dateOfNow n && 0 < n.secs)

/-! ## strptime over the six accepted formats

`possible_date_formats` (MertonCouncil.py lines 120–127) in declared
order.  `%A`/`%B` match full weekday/month names case-insensitively
(Python does not check the weekday against the date), `%d`/`%m` match one
or two digits in range, `%Y` exactly four digits; a successful match ends
with the `datetime` constructor's validation (`mkDate`).  Formats without
`%Y` leave the `strptime` default year 1900. -/

inductive Fmt
  | wdmY
  | wdm
  | dmY
  | dm
  | slashDMY
  | dashDMY
deriving DecidableEq

def possible_date_formats : List Fmt :=
  [.wdmY, .wdm, .dmY, .dm, .slashDMY, .dashDMY]

/-- Whether "%Y" occurs in the format string. -/
def fmtHasYear : Fmt → Bool
  | .wdm => false
  | .dm => false
  | _ => true

def monthNames : List String :=
  ["january", "february", "march", "april", "may", "june", "july",
   "august", "september", "october", "november", "december"]

def weekdayNames : List String :=
  ["monday", "tuesday", "wednesday", "thursday", "friday", "saturday", "sunday"]

def isWeekdayName (cs : List Char) : Bool :=
  weekdayNames.contains (String.mk (cs.map charToLower))

def parseMonthName (cs : List Char) : Option Nat :=
  match monthNames.findIdx? (fun n => n == String.mk (cs.map charToLower)) with
  | some i => some (i + 1)
  | none => none

/-- `%d`: one or two digits, value 1–31. -/
def parseDayTok (cs : List Char) : Option Nat :=
  if cs.length = 1 ∨ cs.length = 2 then
    match parseNatList cs with
    | some v => if 1 ≤ v ∧ v ≤ 31 then some v else none
    | none => none
  else none

/-- `%m`: one or two digits, value 1–12. -/
def parseMonthNum (cs : List Char) : Option Nat :=
  if cs.length = 1 ∨ cs.length = 2 then
    match parseNatList cs with
    | some v => if 1 ≤ v ∧ v ≤ 12 then some v else none
    | none => none
  else none

/-- `%Y`: exactly four digits. -/
def parseYearTok (cs : List Char) : Option Nat :=
  if cs.length = 4 then parseNatList cs else none

/-- Whitespace-separated tokens (a literal blank in a format matches a
run of whitespace). -/
def tokensSpace (s : String) : List (List Char) :=
  (splitOnChar ' ' s.data).filter (fun t => t ≠ [])

def strptime : Fmt → String → Option Date
  | .wdmY, s =>
    match tokensSpace s with
    | [w, d, m, y] =>
      if isWeekdayName w then
        (parseDayTok d).bind fun dv =>
        (parseMonthName m).bind fun mv =>
        (parseYearTok y).bind fun yv => mkDate yv mv dv
      else none
    | _ => none
  | .wdm, s =>
    match tokensSpace s with
    | [w, d, m] =>
      if isWeekdayName w then
        (parseDayTok d).bind fun dv =>
        (parseMonthName m).bind fun mv => mkDate 1900 mv dv
      else none
    | _ => none
  | .dmY, s =>
    match tokensSpace s with
    | [d, m, y] =>
      (parseDayTok d).bind fun dv =>
      (parseMonthName m).bind fun mv =>
      (parseYearTok y).bind fun yv => mkDate yv mv dv
    | _ => none
  | .dm, s =>
    match tokensSpace s with
    | [d, m] =>
      (parseDayTok d).bind fun dv =>
      (parseMonthName m).bind fun mv => mkDate 1900 mv dv
    | _ => none
  | .slashDMY, s =>
    match splitOnChar '/' s.data with
    | [d, m, y] =>
      (parseDayTok d).bind fun dv =>
      (parseMonthNum m).bind fun mv =>
      (parseYearTok y).bind fun yv => mkDate yv mv dv
    | _ => none
  | .dashDMY, s =>
    match splitOnChar '-' s.data with
    | [d, m, y] =>
      (parseDayTok d).bind fun dv =>
      (parseMonthNum m).bind fun mv =>
      (parseYearTok y).bind fun yv => mkDate yv mv dv
    | _ => none

/-! ## Year resolution (MertonCouncil.py lines 181–197) -/

/-- Python `datetime.replace(year := y)` re-validates through the
constructor. -/
def replaceYear (d : Date) (y : Nat) : Option Date :=
  mkDate y d.month d.day

/-- One iteration of the format loop body: `strptime`, then, when the
format has no year, substitute the current year and roll forward one
year when the result is before `datetime.now()`.  A `ValueError`
anywhere in the body means this format contributes nothing and the loop
continues. -/
def resolveFmt (now : Now) (fmt : Fmt) (dateText : String) : Option Date :=
  match strptime fmt dateText with
  | none => none
  | some p =>
    if fmtHasYear fmt then some p
    else
      match replaceYear p now.year with
      | none => none
      | some p1 =>
        if dtLtNow p1 now then replaceYear p1 (now.year + 1) else some p1

def firstSomeFmt (now : Now) (t : String) : List Fmt → Option Date
  | [] => none
  | f :: fs =>
    match resolveFmt now f t with
    | some d => some d
    | none => firstSomeFmt now t fs

/-- The whole `for fmt in possible_date_formats` loop: first success
wins, later formats are never tried. -/
def resolveDate (now : Now) (dateText : String) : Option Date :=
  firstSomeFmt now dateText possible_date_formats

/-! ## The shared output date format

Both variants render dates with `strftime(date_format)` and the sort key
re-parses with `strptime(x["collectionDate"], date_format)`. -/

/-- Modelled from the spec: the module-level constant `date_format` lives
in the shared `common` module, which is not part of the sources; the spec
says only that every output date string is rendered "in one fixed format
shared across the whole system regardless of originating adapter".  We
model it as zero-padded day/month plus four-digit year, separated by
slashes. -/
def formatCollectionDate (d : Date) : String :=
  String.mk (padTo 2 (natChars d.day) ++ '/' ::
    (padTo 2 (natChars d.month) ++ '/' :: padTo 4 (natChars d.year)))

/-- Modelled from the spec: `datetime.strptime(s, date_format)` for the
same fixed format — the inverse reading used by the sort key (day and
month one or two digits, year exactly four, then constructor
validation). -/
def readCollectionDate (s : String) : Option Date :=
  match splitOnChar '/' s.data with
  | [d, m, y] =>
    (parseDayTok d).bind fun dv =>
    (parseMonthNum m).bind fun mv =>
    (parseYearTok y).bind fun yv => mkDate yv mv dv
  | _ => none

/-! ## Records and the stable sort -/

/-- One entry of `data["bins"]`. -/
structure Record where
  type : String
  collectionDate : String
deriving DecidableEq

/-- The sort key `datetime.strptime(x["collectionDate"], date_format)`;
the default is irrelevant because the sort only runs when every entry
parses. -/
def sortKey (r : Record) : Date :=
  (readCollectionDate r.collectionDate).getD ⟨0, 0, 0⟩

/-- Insert before the first entry with a key not smaller — the unique
stable order, which is what Python's stable `list.sort` produces. -/
def insertRec (x : Record) : List Record → List Record
  | [] => [x]
  | y :: ys => if dateLe (sortKey x) (sortKey y) then x :: y :: ys else y :: insertRec x ys

/-- Python `data["bins"].sort(key = ...)` (stable, ascending). -/
def sortRecs : List Record → List Record
  | [] => []
  | x :: xs => insertRec x (sortRecs xs)

/-- Whether every sort key computes, i.e. whether the `strptime` inside
the key would raise. -/
def allKeysParse (l : List Record) : Bool :=
  l.all (fun b => (readCollectionDate b.collectionDate).isSome)

/-- Lines 218–223 of the HTML variant: `try: sort / except: pass` —
CPython computes all keys before permuting, so a failing key leaves the
list unchanged. -/
def sortBins (l : List Record) : List Record :=
  if allKeysParse l then sortRecs l else l

/-! ## The HTML variant (MertonCouncil.py lines 106–225)

A `Service` models one element of `waste_services` as BeautifulSoup
exposes it to the loop body: the stripped text of
`service.find(["h2", "h3", "h4", "strong"])` if any, the stripped text of
the class-based fallback `find` if any, and the `find_all` list of info
elements, each carrying its `get_text()` and the stripped text of its
first bold descendant if any. -/

structure InfoElem where
  text : String
  boldText : Option String
deriving DecidableEq

structure Service where
  headingByTag : Option String
  headingByClass : Option String
  infoElements : List InfoElem
deriving DecidableEq

/-- Lines 134–137: heading by tag, else heading by class. -/
def headingOf (s : Service) : Option String :=
  match s.headingByTag with
  | some h => some h
  | none => s.headingByClass

/-- Lines 160–172: date text from an element that mentions
"next collection" — after the first colon, else the bold text, else the
text with both spellings of the phrase removed, stripped. -/
def extractDateText (e : InfoElem) : String :=
  if strContains e.text ":" then
    String.mk (trimList (afterFirstChar ':' e.text.data))
  else
    match e.boldText with
    | some b => b
    | none =>
      strTrim (strReplace (strReplace e.text "Next collection" "") "next collection" "")

/-- Lines 174–177: strip the leading fillers "on ", "is ", "date " in
that order, re-stripping after each removal. -/
def stripLeadFillers (dt : String) : String :=
  ["on ", "is ", "date "].foldl
    (fun cur p =>
      if cur ≠ "" ∧ isPrefixList p.data (strLower cur).data then
        strTrim (String.mk (cur.data.drop p.data.length))
      else cur)
    dt

/-- Lines 154–200: scan the info elements; the first one that both
mentions "next collection" and yields a date that resolves wins; an
element whose date text fails every format does not stop the scan. -/
def findCollectionDate (now : Now) : List InfoElem → Option Date
  | [] => none
  | e :: rest =>
    if strContains (strLower e.text) "next collection" then
      let dt := stripLeadFillers (extractDateText e)
      if dt ≠ "" ∧ dt.data.length > 3 then
        match resolveDate now dt with
        | some d => some d
        | none => findCollectionDate now rest
      else findCollectionDate now rest
    else findCollectionDate now rest

/-- Lines 132–208, one `waste_services` iteration: skip when no heading
or a blank heading, otherwise emit a record exactly when a date was
found.  Nothing in the body raises outside what is already modelled, so
the `except: continue` guard is the `none` path. -/
def processService (now : Now) (s : Service) : Option Record :=
  match headingOf s with
  | none => none
  | some binType =>
    if binType = "" ∨ (["", " "] : List String).contains (strLower binType) then none
    else
      match findCollectionDate now s.infoElements with
      | none => none
      | some d => some ⟨binType, formatCollectionDate d⟩

/-- `parse_data` of the HTML variant from the point where
`waste_services` is in hand (line 117 empty check, the extraction loop,
line 215 empty check, lines 218–223 guarded sort). -/
def parse_data_html (now : Now) (services : List Service) : Except String (List Record) :=
  if services.isEmpty then
    .error "Could not find waste service containers on results page"
  else if (services.filterMap (processService now)).isEmpty then
    .error "No collection dates found - page structure may have changed"
  else
    .ok (sortBins (services.filterMap (processService now)))

/-! ## The ICS variant (councils copy/MertonCouncil.py lines 53–77) -/

/-- One parsed calendar event: `event.name` and `event.begin.date()`. -/
structure Event where
  name : String
  beginDate : Date
deriving DecidableEq

/-- Lines 57–69, one event: keep it when its date is on or after today;
the label is the name with every occurrence of " collection" removed and
then stripped. -/
def icsRecord (today : Date) (e : Event) : Option Record :=
  if dateLe today e.beginDate then
    some ⟨strTrim (strReplace e.name " collection" ""), formatCollectionDate e.beginDate⟩
  else none

/-- `parse_data` of the ICS variant from the point where the calendar's
events are in hand (extraction loop, line 71 empty check, line 75
unguarded sort — a key that fails to parse raises out of `parse_data`,
modelled by the error branch). -/
def parse_data_ics (today : Date) (events : List Event) : Except String (List Record) :=
  if (events.filterMap (icsRecord today)).isEmpty then
    .error "ICS calendar was parsed but no upcoming events were found."
  else if allKeysParse (events.filterMap (icsRecord today)) then
    .ok (sortRecs (events.filterMap (icsRecord today)))
  else
    .error "ValueError: time data does not match format"

/-- Definition following the spec's words, for comparison in C3: the
event-name label with only a trailing " collection" suffix stripped and
surrounding whitespace trimmed. -/
def stripTrailingCollectionSpec (s : String) : String :=
  if isPrefixList (" collection".data.reverse) s.data.reverse then
    strTrim (String.mk (s.data.take (s.data.length - (" collection".data).length)))
  else strTrim s

/-! ## Order facts about dates -/

theorem dateLe_total (a b : Date) : dateLe a b = true ∨ dateLe b a = true := by
  cases a; cases b
  simp only [dateLe, dateLt, Bool.or_eq_true, decide_eq_true_eq, beq_iff_eq, Date.mk.injEq]
  omega

theorem dateLe_trans {a b c : Date} (h1 : dateLe a b = true) (h2 : dateLe b c = true) :
    dateLe a c = true := by
  cases a; cases b; cases c
  simp only [dateLe, dateLt, Bool.or_eq_true, decide_eq_true_eq, beq_iff_eq, Date.mk.injEq] at *
  omega

theorem dateLe_of_not_dateLe {a b : Date} (h : ¬ dateLe a b = true) : dateLe b a = true := by
  rcases dateLe_total a b with h' | h'
  · exact absurd h' h
  · exact h'

theorem ne_of_not_dateLe {a b : Date} (h : ¬ dateLe a b = true) : b ≠ a := by
  intro heq
  subst heq
  exact h (by simp [dateLe])

/-! ## The stable sort: permutation, sortedness, stability -/

theorem insertRec_perm (x : Record) (l : List Record) :
    List.Perm (insertRec x l) (x :: l) := by
  induction l with
  | nil => simp [insertRec]
  | cons y ys ih =>
    simp only [insertRec]
    split
    · exact List.Perm.refl _
    · exact List.Perm.trans (List.Perm.cons y ih) (List.Perm.swap x y ys)

theorem sortRecs_perm (l : List Record) : List.Perm (sortRecs l) l := by
  induction l with
  | nil => exact List.Perm.refl _
  | cons x xs ih =>
    exact List.Perm.trans (insertRec_perm x (sortRecs xs)) (List.Perm.cons x ih)

def recLe (a b : Record) : Prop := dateLe (sortKey a) (sortKey b) = true

theorem pairwise_insertRec {x : Record} {l : List Record}
    (h : List.Pairwise recLe l) : List.Pairwise recLe (insertRec x l) := by
  induction l with
  | nil => simp [insertRec, List.pairwise_singleton]
  | cons y ys ih =>
    simp only [insertRec]
    rcases List.pairwise_cons.mp h with ⟨hy, hys⟩
    split
    · rename_i hle
      refine List.pairwise_cons.mpr ⟨?_, h⟩
      intro z hz
      rcases hz with _ | hz
      · exact hle
      · exact dateLe_trans hle (hy z (by assumption))
    · rename_i hle
      refine List.pairwise_cons.mpr ⟨?_, ih hys⟩
      intro z hz
      rcases List.mem_cons.mp ((insertRec_perm x ys).mem_iff.mp hz) with hz1 | hz1
      · subst hz1
        exact dateLe_of_not_dateLe hle
      · exact hy z hz1

theorem sortRecs_pairwise (l : List Record) : List.Pairwise recLe (sortRecs l) := by
  induction l with
  | nil => simp [sortRecs]
  | cons x xs ih => exact pairwise_insertRec ih

/-- Stability of the insertion: restricted to any one key value, the
order is untouched. -/
theorem insertRec_filter (x : Record) (l : List Record) (k : Date) :
    (insertRec x l).filter (fun b => decide (sortKey b = k))
      = if sortKey x = k then
          x :: l.filter (fun b => decide (sortKey b = k))
        else l.filter (fun b => decide (sortKey b = k)) := by
  induction l with
  | nil =>
    by_cases hk : sortKey x = k <;> simp [insertRec, List.filter_cons, hk]
  | cons y ys ih =>
    simp only [insertRec]
    split
    · by_cases hk : sortKey x = k <;> simp [List.filter_cons, hk]
    · rename_i hle
      have hyx : sortKey y ≠ sortKey x := ne_of_not_dateLe hle
      by_cases hk : sortKey x = k
      · have hyk : sortKey y ≠ k := fun hc => hyx (hc.trans hk.symm)
        simp [List.filter_cons, hyk, ih, hk]
      · by_cases hyk : sortKey y = k <;> simp [List.filter_cons, hyk, ih, hk]

theorem sortRecs_filter (l : List Record) (k : Date) :
    (sortRecs l).filter (fun b => decide (sortKey b = k))
      = l.filter (fun b => decide (sortKey b = k)) := by
  induction l with
  | nil => rfl
  | cons x xs ih =>
    simp only [sortRecs, insertRec_filter, List.filter_cons]
    by_cases hk : sortKey x = k <;> simp [hk, ih]

theorem sortBins_perm (l : List Record) : List.Perm (sortBins l) l := by
  unfold sortBins
  split
  · exact sortRecs_perm l
  · exact List.Perm.refl _

/-! ## Round trip of the output date format -/

theorem digitChar_facts :
    ∀ d, d < 10 → isDigitChar (digitChar d) = true ∧ digitVal (digitChar d) = d ∧
      digitChar d ≠ '/' := by decide

theorem natCharsAux_all_digits (fuel n : Nat) :
    (natCharsAux fuel n).all isDigitChar = true := by
  induction fuel generalizing n with
  | zero => cases n <;> rfl
  | succ fuel ih =>
    cases n with
    | zero => rfl
    | succ m =>
      rw [show natCharsAux (fuel + 1) (m + 1)
            = natCharsAux fuel ((m + 1) / 10) ++ [digitChar ((m + 1) % 10)] from rfl]
      simp [List.all_append, ih,
        (digitChar_facts ((m + 1) % 10) (Nat.mod_lt _ (by norm_num))).1]

theorem natCharsAux_foldl (fuel : Nat) :
    ∀ n a, n ≤ fuel →
      (natCharsAux fuel n).foldl (fun x c => x * 10 + digitVal c) a
        = a * 10 ^ (natCharsAux fuel n).length + n := by
  induction fuel with
  | zero =>
    intro n a hn
    interval_cases n
    simp [natCharsAux]
  | succ fuel ih =>
    intro n a hn
    cases n with
    | zero => simp [natCharsAux]
    | succ m =>
      rw [show natCharsAux (fuel + 1) (m + 1)
            = natCharsAux fuel ((m + 1) / 10) ++ [digitChar ((m + 1) % 10)] from rfl]
      have hdiv : (m + 1) / 10 ≤ fuel := by
        have := Nat.div_lt_self (Nat.succ_pos m) (by norm_num : 1 < 10)
        omega
      rw [List.foldl_append, ih _ a hdiv]
      simp only [List.foldl, List.length_append, List.length_cons, List.length_nil]
      rw [(digitChar_facts ((m + 1) % 10) (Nat.mod_lt _ (by norm_num))).2.1]
      have hmod := Nat.div_add_mod (m + 1) 10
      rw [pow_succ]
      ring_nf
      omega

theorem natCharsAux_length_le (fuel : Nat) :
    ∀ n k, n ≤ fuel → n < 10 ^ k → (natCharsAux fuel n).length ≤ k := by
  induction fuel with
  | zero =>
    intro n k hn _
    interval_cases n
    simp [natCharsAux]
  | succ fuel ih =>
    intro n k hn hk
    cases n with
    | zero => simp [natCharsAux]
    | succ m =>
      rw [show natCharsAux (fuel + 1) (m + 1)
            = natCharsAux fuel ((m + 1) / 10) ++ [digitChar ((m + 1) % 10)] from rfl]
      have hk1 : 1 ≤ k := by
        by_contra hc
        have : k = 0 := by omega
        subst this
        simp at hk
      have hdivfuel : (m + 1) / 10 ≤ fuel := by
        have := Nat.div_lt_self (Nat.succ_pos m) (by norm_num : 1 < 10)
        omega
      have hdivpow : (m + 1) / 10 < 10 ^ (k - 1) := by
        rw [Nat.div_lt_iff_lt_mul (by norm_num : 0 < 10)]
        calc m + 1 < 10 ^ k := hk
          _ = 10 ^ (k - 1) * 10 := by
            rw [← pow_succ]
            congr 1
            omega
      have := ih ((m + 1) / 10) (k - 1) hdivfuel hdivpow
      simp only [List.length_append, List.length_cons, List.length_nil]
      omega

theorem natChars_all_digits (n : Nat) : (natChars n).all isDigitChar = true := by
  unfold natChars
  split
  · decide
  · exact natCharsAux_all_digits n n

theorem natChars_ne_nil (n : Nat) : natChars n ≠ [] := by
  unfold natChars
  split
  · simp
  · rename_i hn
    cases n with
    | zero => exact absurd rfl hn
    | succ m =>
      rw [show natCharsAux (m + 1) (m + 1)
            = natCharsAux m ((m + 1) / 10) ++ [digitChar ((m + 1) % 10)] from rfl]
      simp

theorem natChars_foldl (n : Nat) :
    (natChars n).foldl (fun x c => x * 10 + digitVal c) 0 = n := by
  unfold natChars
  split
  · rename_i hn
    subst hn
    decide
  · rw [natCharsAux_foldl n n 0 (le_refl n)]
    simp

theorem natChars_length_le {n k : Nat} (hk : 1 ≤ k) (hn : n < 10 ^ k) :
    (natChars n).length ≤ k := by
  unfold natChars
  split
  · simpa using hk
  · exact natCharsAux_length_le n n k (le_refl n) hn

theorem foldl_replicate_zero (j : Nat) :
    (List.replicate j '0').foldl (fun x c => x * 10 + digitVal c) 0 = 0 := by
  induction j with
  | zero => rfl
  | succ j ih => simpa [List.replicate_succ, List.foldl_cons] using ih

theorem padTo_all_digits {k : Nat} {cs : List Char} (h : cs.all isDigitChar = true) :
    (padTo k cs).all isDigitChar = true := by
  unfold padTo
  rw [List.all_append, h]
  have : ∀ c ∈ List.replicate (k - cs.length) '0', isDigitChar c = true := by
    intro c hc
    rw [List.eq_of_mem_replicate hc]
    decide
  simp [List.all_eq_true.mpr this]

theorem padTo_length {k : Nat} {cs : List Char} (h : cs.length ≤ k) :
    (padTo k cs).length = k := by
  unfold padTo
  simp only [List.length_append, List.length_replicate]
  omega

theorem padTo_ne_nil {k : Nat} {cs : List Char} (h : cs ≠ []) : padTo k cs ≠ [] := by
  unfold padTo
  intro hc
  rcases List.append_eq_nil.mp hc with ⟨_, h2⟩
  exact h h2

theorem parseNatList_padTo_natChars (k n : Nat) :
    parseNatList (padTo k (natChars n)) = some n := by
  unfold parseNatList
  rw [if_pos]
  · congr 1
    unfold padTo
    rw [List.foldl_append, foldl_replicate_zero]
    exact natChars_foldl n
  · exact ⟨padTo_ne_nil (natChars_ne_nil n), padTo_all_digits (natChars_all_digits n)⟩

theorem not_slash_of_all_digits {cs : List Char} (h : cs.all isDigitChar = true) :
    '/' ∉ cs := by
  intro hc
  have := List.all_eq_true.mp h '/' hc
  simp [isDigitChar] at this

theorem splitOnChar_not_mem {sep : Char} {cs : List Char} (h : sep ∉ cs) :
    splitOnChar sep cs = [cs] := by
  induction cs with
  | nil => rfl
  | cons c rest ih =>
    have hc : ¬ c = sep := fun hc => h (hc ▸ List.mem_cons_self c rest)
    have hrest : sep ∉ rest := fun hr => h (List.mem_cons_of_mem c hr)
    simp only [splitOnChar]
    rw [if_neg (by simpa using fun hcc => hc (by simpa using hcc)), ih hrest]

theorem splitOnChar_append (sep : Char) (xs ys : List Char) (h : sep ∉ xs) :
    splitOnChar sep (xs ++ sep :: ys) = xs :: splitOnChar sep ys := by
  induction xs with
  | nil =>
    simp only [List.nil_append, splitOnChar]
    rw [if_pos (by simp)]
  | cons x xs' ih =>
    have hx : ¬ x = sep := fun hc => h (hc ▸ List.mem_cons_self x xs')
    have hxs : sep ∉ xs' := fun hr => h (List.mem_cons_of_mem x hr)
    simp only [List.cons_append, splitOnChar, List.append_eq]
    rw [ih hxs, if_neg (by simpa using fun hcc => hx (by simpa using hcc))]

theorem daysInMonth_le_31 (y m : Nat) : daysInMonth y m ≤ 31 := by
  unfold daysInMonth
  split_ifs <;> omega

/-- The fixed output format reads back to the date it was rendered
from — this is why the sort key in both variants never raises. -/
theorem readback_format (d : Date) (h : ValidDate d) :
    readCollectionDate (formatCollectionDate d) = some d := by
  obtain ⟨hy1, hy2, hm1, hm2, hd1, hd2⟩ := h
  have hDdig := padTo_all_digits (k := 2) (natChars_all_digits d.day)
  have hMdig := padTo_all_digits (k := 2) (natChars_all_digits d.month)
  have hDlen : (padTo 2 (natChars d.day)).length = 2 :=
    padTo_length (natChars_length_le (by norm_num)
      (by have := daysInMonth_le_31 d.year d.month; omega))
  have hMlen : (padTo 2 (natChars d.month)).length = 2 :=
    padTo_length (natChars_length_le (by norm_num) (by omega))
  have hYlen : (padTo 4 (natChars d.year)).length = 4 :=
    padTo_length (natChars_length_le (by norm_num) (by omega))
  unfold readCollectionDate formatCollectionDate
  rw [show (String.mk (padTo 2 (natChars d.day) ++ '/' ::
        (padTo 2 (natChars d.month) ++ '/' :: padTo 4 (natChars d.year)))).data
      = padTo 2 (natChars d.day) ++ '/' ::
        (padTo 2 (natChars d.month) ++ '/' :: padTo 4 (natChars d.year)) from rfl]
  rw [splitOnChar_append '/' _ _ (not_slash_of_all_digits hDdig)]
  rw [splitOnChar_append '/' _ _ (not_slash_of_all_digits hMdig)]
  rw [splitOnChar_not_mem (not_slash_of_all_digits (padTo_all_digits (k := 4)
        (natChars_all_digits d.year)))]
  show (parseDayTok _).bind _ = some d
  rw [show parseDayTok (padTo 2 (natChars d.day)) = some d.day by
    unfold parseDayTok
    rw [if_pos (Or.inr hDlen), parseNatList_padTo_natChars]
    exact if_pos ⟨hd1, by have := daysInMonth_le_31 d.year d.month; omega⟩]
  rw [Option.some_bind]
  rw [show parseMonthNum (padTo 2 (natChars d.month)) = some d.month by
    unfold parseMonthNum
    rw [if_pos (Or.inr hMlen), parseNatList_padTo_natChars]
    exact if_pos ⟨hm1, hm2⟩]
  rw [Option.some_bind]
  rw [show parseYearTok (padTo 4 (natChars d.year)) = some d.year by
    unfold parseYearTok
    rw [if_pos hYlen]
    exact parseNatList_padTo_natChars 4 d.year]
  rw [Option.some_bind]
  unfold mkDate
  rw [if_pos ⟨hy1, hy2, hm1, hm2, hd1, hd2⟩]

/-! ## Validity of every date the resolver can produce -/

theorem mkDate_eq_some {y m dd : Nat} {d : Date} (h : mkDate y m dd = some d) :
    d = ⟨y, m, dd⟩ ∧ ValidDate d := by
  unfold mkDate at h
  split at h
  · rename_i hcond
    cases h
    exact ⟨rfl, hcond⟩
  · cases h

theorem strptime_valid {f : Fmt} {t : String} {d : Date} (h : strptime f t = some d) :
    ValidDate d := by
  cases f <;> simp only [strptime] at h <;>
    (try split at h) <;>
    (try cases h) <;>
    (try split at h) <;>
    (try cases h) <;>
    simp only [Option.bind_eq_some] at h <;>
    first
      | (obtain ⟨dv, _, mv, _, hmk⟩ := h; exact (mkDate_eq_some hmk).2)
      | (obtain ⟨dv, _, mv, _, yv, _, hmk⟩ := h; exact (mkDate_eq_some hmk).2)

theorem replaceYear_valid {p : Date} {y : Nat} {d : Date} (h : replaceYear p y = some d) :
    ValidDate d :=
  (mkDate_eq_some h).2

theorem resolveFmt_valid {now : Now} {f : Fmt} {t : String} {d : Date}
    (h : resolveFmt now f t = some d) : ValidDate d := by
  unfold resolveFmt at h
  split at h
  · cases h
  · rename_i p hp
    split at h
    · cases h
      exact strptime_valid hp
    · split at h
      · cases h
      · rename_i p1 hp1
        split at h
        · exact replaceYear_valid h
        · cases h
          exact replaceYear_valid hp1

theorem firstSomeFmt_valid {now : Now} {t : String} {d : Date} :
    ∀ {fs : List Fmt}, firstSomeFmt now t fs = some d → ValidDate d := by
  intro fs
  induction fs with
  | nil => intro h; cases h
  | cons f fs ih =>
    intro h
    simp only [firstSomeFmt] at h
    split at h
    · cases h
      rename_i hf
      exact resolveFmt_valid hf
    · exact ih h

theorem resolveDate_valid {now : Now} {t : String} {d : Date}
    (h : resolveDate now t = some d) : ValidDate d :=
  firstSomeFmt_valid h

theorem findCollectionDate_valid {now : Now} {d : Date} :
    ∀ {es : List InfoElem}, findCollectionDate now es = some d → ValidDate d := by
  intro es
  induction es with
  | nil => intro h; cases h
  | cons e rest ih =>
    intro h
    simp only [findCollectionDate] at h
    split at h
    · split at h
      · split at h
        · cases h
          rename_i hres
          exact resolveDate_valid hres
        · exact ih h
      · exact ih h
    · exact ih h

/-! ## Shape of the records each variant emits -/

theorem processService_eq_some {now : Now} {s : Service} {r : Record}
    (h : processService now s = some r) :
    ∃ binType dd, headingOf s = some binType ∧ ValidDate dd ∧
      findCollectionDate now s.infoElements = some dd ∧
      r = ⟨binType, formatCollectionDate dd⟩ := by
  unfold processService at h
  split at h
  · cases h
  · rename_i binType hbt
    split at h
    · cases h
    · split at h
      · cases h
      · rename_i dd hdd
        cases h
        exact ⟨binType, dd, hbt, findCollectionDate_valid hdd, hdd, rfl⟩

theorem icsRecord_eq_some {today : Date} {e : Event} {r : Record}
    (h : icsRecord today e = some r) :
    dateLe today e.beginDate = true ∧
      r = ⟨strTrim (strReplace e.name " collection" ""), formatCollectionDate e.beginDate⟩ := by
  unfold icsRecord at h
  split at h
  · cases h
    rename_i hle
    exact ⟨hle, rfl⟩
  · cases h

theorem html_bins_keys_parse {now : Now} {services : List Service} :
    allKeysParse (services.filterMap (processService now)) = true := by
  unfold allKeysParse
  rw [List.all_eq_true]
  intro b hb
  rcases List.mem_filterMap.mp hb with ⟨s, _, hs⟩
  obtain ⟨binType, dd, _, hvalid, _, hr⟩ := processService_eq_some hs
  subst hr
  simp [readback_format dd hvalid]

theorem ics_bins_keys_parse {today : Date} {events : List Event}
    (hval : ∀ e ∈ events, ValidDate e.beginDate) :
    allKeysParse (events.filterMap (icsRecord today)) = true := by
  unfold allKeysParse
  rw [List.all_eq_true]
  intro b hb
  rcases List.mem_filterMap.mp hb with ⟨e, he, hs⟩
  obtain ⟨_, hr⟩ := icsRecord_eq_some hs
  subst hr
  simp [readback_format e.beginDate (hval e he)]

/-! ## Inversion of the two pipelines on success -/

theorem parse_data_html_ok {now : Now} {services : List Service} {bins : List Record}
    (h : parse_data_html now services = .ok bins) :
    ¬ services.isEmpty = true ∧
      ¬ (services.filterMap (processService now)).isEmpty = true ∧
      bins = sortRecs (services.filterMap (processService now)) := by
  unfold parse_data_html at h
  split at h
  · cases h
  · rename_i hsvc
    split at h
    · cases h
    · rename_i hbins
      cases h
      refine ⟨hsvc, hbins, ?_⟩
      unfold sortBins
      rw [if_pos html_bins_keys_parse]

theorem parse_data_ics_ok {today : Date} {events : List Event} {bins : List Record}
    (h : parse_data_ics today events = .ok bins) :
    ¬ (events.filterMap (icsRecord today)).isEmpty = true ∧
      bins = sortRecs (events.filterMap (icsRecord today)) := by
  unfold parse_data_ics at h
  split at h
  · cases h
  · rename_i hbins
    split at h
    · cases h
      exact ⟨hbins, rfl⟩
    · cases h

/-! ## Helper: a prefix of failing formats is skipped -/

theorem firstSomeFmt_none_skip {now : Now} {t : String} :
    ∀ {pre rest : List Fmt}, (∀ g ∈ pre, resolveFmt now g t = none) →
      firstSomeFmt now t (pre ++ rest) = firstSomeFmt now t rest := by
  intro pre
  induction pre with
  | nil => intro rest _; rfl
  | cons g gs ih =>
    intro rest h
    simp only [List.cons_append, firstSomeFmt, h g (List.mem_cons_self g gs)]
    exact ih (fun x hx => h x (List.mem_cons_of_mem g hx))

/-- Claim C5: on every input each variant either fails or returns a
non-empty list of bins: an empty extraction raises (lines 215–216 resp.
71–72) and is never returned as an empty success. -/
theorem c5_nonempty_or_error :
    (∀ now services bins, parse_data_html now services = Except.ok bins → bins ≠ []) ∧
    (∀ today events bins, parse_data_ics today events = Except.ok bins → bins ≠ []) := by
  constructor
  · intro now services bins h hcon
    obtain ⟨_, hne, hb⟩ := parse_data_html_ok h
    subst hb
    exact hne (List.isEmpty_iff.mpr ((hcon ▸ sortRecs_perm _).symm.eq_nil))
  · intro today events bins h hcon
    obtain ⟨hne, hb⟩ := parse_data_ics_ok h
    subst hb
    exact hne (List.isEmpty_iff.mpr ((hcon ▸ sortRecs_perm _).symm.eq_nil))

theorem c5_nonempty_or_error_witness :
    ([⟨"Garden Waste", "24/10/2025"⟩] : List Record) ≠ [] :=
  c5_nonempty_or_error.1 ⟨2025, 1, 1, 0⟩
    [⟨some "Garden Waste", none, [⟨"Next collection: 24/10/2025", none⟩]⟩] _ rfl

/-- Claim C6: a candidate that yields no record (for instance because its
raw date text matches no accepted format) is dropped without affecting
any other candidate: the run is identical to the run without it,
whenever at least one other candidate produces a record. -/
theorem c6_per_candidate_drop :
    ∀ now pre post bad, processService now bad = none →
      (pre ++ post).filterMap (processService now) ≠ [] →
      parse_data_html now (pre ++ bad :: post) = parse_data_html now (pre ++ post) := by
  intro now pre post bad hbad hne
  have hfm : (pre ++ bad :: post).filterMap (processService now)
      = (pre ++ post).filterMap (processService now) := by
    simp [List.filterMap_append, List.filterMap_cons, hbad]
  have h1 : (pre ++ bad :: post).isEmpty = false := by cases pre <;> simp
  have h2 : (pre ++ post).isEmpty = false := by
    cases hpp : pre ++ post with
    | nil => rw [hpp] at hne; simp at hne
    | cons a l => simp
  simp only [parse_data_html, hfm, h1, h2, Bool.false_eq_true, if_false]

theorem c6_per_candidate_drop_witness :
    parse_data_html ⟨2025, 1, 1, 0⟩
      ([⟨some "Garden Waste", none, [⟨"Next collection: 24/10/2025", none⟩]⟩] ++
        (⟨some "Recycling", none, [⟨"Next collection: total gibberish", none⟩]⟩ : Service) ::
        ([] : List Service))
      = parse_data_html ⟨2025, 1, 1, 0⟩
        ([⟨some "Garden Waste", none, [⟨"Next collection: 24/10/2025", none⟩]⟩] ++ []) :=
  c6_per_candidate_drop ⟨2025, 1, 1, 0⟩ _ _ _ rfl (by decide)

/-- Claim C7: the resolver attempts the six formats strictly in declared
list order and the first attempt that succeeds determines the result; no
later format is consulted. -/
theorem c7_first_format_wins :
    ∀ now t pre f suf d,
      possible_date_formats = pre ++ f :: suf →
      (∀ g ∈ pre, resolveFmt now g t = none) →
      resolveFmt now f t = some d →
      resolveDate now t = some d := by
  intro now t pre f suf d hdecomp hpre hf
  unfold resolveDate
  rw [hdecomp, firstSomeFmt_none_skip hpre]
  simp [firstSomeFmt, hf]

theorem c7_first_format_wins_witness :
    resolveDate ⟨2025, 1, 1, 0⟩ "24/10/2025" = some ⟨2025, 10, 24⟩ :=
  c7_first_format_wins ⟨2025, 1, 1, 0⟩ "24/10/2025"
    [.wdmY, .wdm, .dmY, .dm] .slashDMY [.dashDMY] ⟨2025, 10, 24⟩
    rfl (by decide) rfl

/-- Claim C9: the embedded pipeline is a pure function of the input
content and the reference clock, so two runs on identical content and
identical "now"/"today" agree, and date resolution on identical
(raw text, now) yields the identical date. -/
theorem c9_deterministic :
    (∀ now services r1 r2, r1 = parse_data_html now services →
        r2 = parse_data_html now services → r1 = r2) ∧
    (∀ today events r1 r2, r1 = parse_data_ics today events →
        r2 = parse_data_ics today events → r1 = r2) ∧
    (∀ now t d1 d2, resolveDate now t = d1 → resolveDate now t = d2 → d1 = d2) := by
  refine ⟨?_, ?_, ?_⟩
  · intro now services r1 r2 h1 h2
    rw [h1, h2]
  · intro today events r1 r2 h1 h2
    rw [h1, h2]
  · intro now t d1 d2 h1 h2
    rw [← h1, ← h2]

theorem c9_deterministic_witness :
    (Except.ok [⟨"Garden Waste", "24/10/2025"⟩] : Except String (List Record))
      = Except.ok [⟨"Garden Waste", "24/10/2025"⟩] :=
  c9_deterministic.1 ⟨2025, 1, 1, 0⟩
    [⟨some "Garden Waste", none, [⟨"Next collection: 24/10/2025", none⟩]⟩]
    _ _ rfl rfl

/-- Claim C1 counterexample: two services with the same bin-type heading
and different dates both appear in the output — the later duplicate is
not discarded, so the result is not unique by type. -/
theorem c1_dedup_counterexample :
    parse_data_html ⟨2025, 1, 1, 0⟩
      [⟨some "Food waste", none, [⟨"Next collection: 24/10/2025", none⟩]⟩,
       ⟨some "Food waste", none, [⟨"Next collection: 31/10/2025", none⟩]⟩]
      = Except.ok [⟨"Food waste", "24/10/2025"⟩, ⟨"Food waste", "31/10/2025"⟩] ∧
    (([⟨"Food waste", "24/10/2025"⟩, ⟨"Food waste", "31/10/2025"⟩] : List Record).filter
        (fun r => r.type == "Food waste")).length = 2 :=
  ⟨rfl, rfl⟩

/-- Claim C1 amended: neither variant deduplicates by type — for every
type, the output keeps exactly as many records of that type as the
candidate traversal produced. -/
theorem c1_amended_no_dedup :
    (∀ now services bins, parse_data_html now services = Except.ok bins →
      ∀ t : String, (bins.filter (fun r => r.type == t)).length
        = ((services.filterMap (processService now)).filter (fun r => r.type == t)).length) ∧
    (∀ today events bins, parse_data_ics today events = Except.ok bins →
      ∀ t : String, (bins.filter (fun r => r.type == t)).length
        = ((events.filterMap (icsRecord today)).filter (fun r => r.type == t)).length) := by
  constructor
  · intro now services bins h t
    obtain ⟨_, _, hb⟩ := parse_data_html_ok h
    subst hb
    exact ((sortRecs_perm _).filter _).length_eq
  · intro today events bins h t
    obtain ⟨_, hb⟩ := parse_data_ics_ok h
    subst hb
    exact ((sortRecs_perm _).filter _).length_eq

theorem c1_amended_no_dedup_witness :
    (([⟨"Food waste", "24/10/2025"⟩, ⟨"Food waste", "31/10/2025"⟩] : List Record).filter
        (fun r => r.type == "Food waste")).length
      = ((([⟨some "Food waste", none, [⟨"Next collection: 24/10/2025", none⟩]⟩,
            ⟨some "Food waste", none, [⟨"Next collection: 31/10/2025", none⟩]⟩]
            : List Service).filterMap (processService ⟨2025, 1, 1, 0⟩)).filter
        (fun r => r.type == "Food waste")).length :=
  c1_amended_no_dedup.1 ⟨2025, 1, 1, 0⟩
    [⟨some "Food waste", none, [⟨"Next collection: 24/10/2025", none⟩]⟩,
     ⟨some "Food waste", none, [⟨"Next collection: 31/10/2025", none⟩]⟩]
    [⟨"Food waste", "24/10/2025"⟩, ⟨"Food waste", "31/10/2025"⟩] rfl "Food waste"

/-- Claim C2 counterexample: the raw text "24 October" has no year and
its month/day equal today's (24 Oct 2025); the claim says it resolves
to the current year, but with the clock one hour past midnight the code
compares the midnight datetime against `datetime.now()` and rolls it to
2026. -/
theorem c2_rollover_counterexample :
    resolveDate ⟨2025, 10, 24, 3600⟩ "24 October" = some ⟨2026, 10, 24⟩ ∧
    dateOfNow ⟨2025, 10, 24, 3600⟩ = ⟨2025, 10, 24⟩ :=
  ⟨rfl, rfl⟩

/-- Claim C2 amended: for a format without a year the resolver assumes
the current year and rolls forward exactly one year precisely when the
assumed date, taken at midnight, is before the `datetime.now()` instant —
that is, when the month/day is strictly before today's date, or equal to
it with the clock past midnight.  A date equal to today therefore stays
in the current year only at exactly midnight.  A format with an explicit
year is returned as parsed, never rolled. -/
theorem c2_amended_rollover :
    ∀ (now : Now) (f : Fmt) (t : String) (p d : Date),
      strptime f t = some p → resolveFmt now f t = some d →
      ((fmtHasYear f = true → d = p) ∧
       (fmtHasYear f = false →
         d.month = p.month ∧ d.day = p.day ∧
         ((dtLtNow ⟨now.year, p.month, p.day⟩ now = true → d.year = now.year + 1) ∧
          (dtLtNow ⟨now.year, p.month, p.day⟩ now = false → d.year = now.year)))) := by
  intro now f t p d hp hres
  unfold resolveFmt at hres
  rw [hp] at hres
  simp only [] at hres
  split at hres
  · rename_i hyf
    cases hres
    exact ⟨fun _ => rfl, fun hc => by rw [hyf] at hc; cases hc⟩
  · rename_i hyf
    refine ⟨fun hc => by rw [hc] at hyf; exact absurd rfl hyf, fun _ => ?_⟩
    split at hres
    · cases hres
    · rename_i p1 hp1
      obtain ⟨hp1eq, _⟩ := mkDate_eq_some hp1
      subst hp1eq
      split at hres
      · rename_i hlt
        obtain ⟨hdeq, _⟩ := mkDate_eq_some hres
        subst hdeq
        exact ⟨rfl, rfl, fun _ => rfl, fun hc => by rw [hlt] at hc; cases hc⟩
      · rename_i hlt
        cases hres
        exact ⟨rfl, rfl, (fun hc => absurd hc hlt), fun _ => rfl⟩

theorem c2_amended_rollover_witness :
    (⟨2026, 11, 7⟩ : Date).year = 2025 + 1 :=
  ((c2_amended_rollover ⟨2025, 11, 10, 0⟩ .dm "7 November" ⟨1900, 11, 7⟩ ⟨2026, 11, 7⟩
      rfl rfl).2 rfl).2.2.1 rfl

/-- Claim C3 counterexample: an event named "Garden collection waste"
has no trailing " collection" suffix, so the claim says the type is the
name unchanged; the code removes the interior occurrence and emits
"Garden waste". -/
theorem c3_suffix_counterexample :
    parse_data_ics ⟨2025, 1, 1⟩ [⟨"Garden collection waste", ⟨2025, 6, 1⟩⟩]
      = Except.ok [⟨"Garden waste", "01/06/2025"⟩] ∧
    stripTrailingCollectionSpec "Garden collection waste" = "Garden collection waste" :=
  ⟨rfl, rfl⟩

/-- Claim C3 amended: for every kept ICS event, the output type is the
event name with every occurrence of " collection" removed (Python
`str.replace` replaces all, not only a trailing suffix) and then
stripped. -/
theorem c3_amended_replace_all :
    ∀ today events bins, parse_data_ics today events = Except.ok bins →
      ∀ b ∈ bins, ∃ e ∈ events, dateLe today e.beginDate = true ∧
        b.type = strTrim (strReplace e.name " collection" "") ∧
        b.collectionDate = formatCollectionDate e.beginDate := by
  intro today events bins h b hb
  obtain ⟨_, hbins⟩ := parse_data_ics_ok h
  subst hbins
  rcases List.mem_filterMap.mp ((sortRecs_perm _).mem_iff.mp hb) with ⟨e, he, hrec⟩
  obtain ⟨hle, hr⟩ := icsRecord_eq_some hrec
  exact ⟨e, he, hle, by rw [hr], by rw [hr]⟩

theorem c3_amended_replace_all_witness :
    ∃ e ∈ ([⟨"Food waste collection", ⟨2025, 6, 1⟩⟩] : List Event),
      dateLe ⟨2025, 1, 1⟩ e.beginDate = true ∧
      (⟨"Food waste", "01/06/2025"⟩ : Record).type
        = strTrim (strReplace e.name " collection" "") ∧
      (⟨"Food waste", "01/06/2025"⟩ : Record).collectionDate
        = formatCollectionDate e.beginDate :=
  c3_amended_replace_all ⟨2025, 1, 1⟩ [⟨"Food waste collection", ⟨2025, 6, 1⟩⟩]
    [⟨"Food waste", "01/06/2025"⟩] rfl _ (List.mem_singleton.mpr rfl)

/-- Claim C4 counterexample: headings that match no plausible allow-list
of bin-type phrases are not dropped — they appear verbatim in the
output, so the emitted vocabulary is open, not closed. -/
theorem c4_allowlist_counterexample :
    parse_data_html ⟨2025, 1, 1, 0⟩
      [⟨some "%% no such bin type %%", none, [⟨"Next collection: 24/10/2025", none⟩]⟩,
       ⟨none, some "Utterly arbitrary heading", [⟨"next collection is 31/10/2025", none⟩]⟩]
      = Except.ok [⟨"%% no such bin type %%", "24/10/2025"⟩,
                   ⟨"Utterly arbitrary heading", "31/10/2025"⟩] :=
  rfl

/-- Claim C4 amended: every emitted type is the verbatim heading text of
some service (no canonicalisation against an allow-list exists in the
code); the only headings dropped are a missing heading or a blank one. -/
theorem c4_amended_verbatim :
    (∀ now services bins, parse_data_html now services = Except.ok bins →
      ∀ b ∈ bins, ∃ s ∈ services, headingOf s = some b.type) ∧
    (∀ now s, headingOf s = some "" → processService now s = none) := by
  constructor
  · intro now services bins h b hb
    obtain ⟨_, _, hbins⟩ := parse_data_html_ok h
    subst hbins
    rcases List.mem_filterMap.mp ((sortRecs_perm _).mem_iff.mp hb) with ⟨s, hs, hrec⟩
    obtain ⟨bt, dd, hhead, _, _, hr⟩ := processService_eq_some hrec
    refine ⟨s, hs, ?_⟩
    rw [hr]
    exact hhead
  · intro now s hh
    unfold processService
    rw [hh]
    simp

theorem c4_amended_verbatim_witness :
    ∃ s ∈ ([⟨some "%% no such bin type %%", none,
             [⟨"Next collection: 24/10/2025", none⟩]⟩] : List Service),
      headingOf s = some (⟨"%% no such bin type %%", "24/10/2025"⟩ : Record).type :=
  c4_amended_verbatim.1 ⟨2025, 1, 1, 0⟩
    [⟨some "%% no such bin type %%", none, [⟨"Next collection: 24/10/2025", none⟩]⟩]
    [⟨"%% no such bin type %%", "24/10/2025"⟩] rfl _ (List.mem_singleton.mpr rfl)

/-- Claim C8: on every successful run of either variant, the bins are
sorted ascending by date under the sort key, the sort is stable (for
every key value the order of discovery is preserved), every
collectionDate was rendered with the one fixed output format and reads
back under it, and the sort's failure branch is unreachable — the
guarded HTML sort always takes the sorting branch, and the unguarded ICS
sort never raises (for ICS the events carry real calendar dates, as the
`ics` library guarantees). -/
theorem c8_sorted_fixed_format :
    (∀ now services bins, parse_data_html now services = Except.ok bins →
       List.Pairwise recLe bins ∧
       (∀ b ∈ bins, ∃ d, ValidDate d ∧ b.collectionDate = formatCollectionDate d ∧
          readCollectionDate b.collectionDate = some d) ∧
       (∀ k : Date, bins.filter (fun b => decide (sortKey b = k))
          = (services.filterMap (processService now)).filter
              (fun b => decide (sortKey b = k))) ∧
       sortBins (services.filterMap (processService now))
          = sortRecs (services.filterMap (processService now))) ∧
    (∀ today events, (∀ e ∈ events, ValidDate e.beginDate) →
       (∀ bins, parse_data_ics today events = Except.ok bins →
          List.Pairwise recLe bins ∧
          (∀ b ∈ bins, ∃ d, ValidDate d ∧ b.collectionDate = formatCollectionDate d ∧
             readCollectionDate b.collectionDate = some d) ∧
          (∀ k : Date, bins.filter (fun b => decide (sortKey b = k))
             = (events.filterMap (icsRecord today)).filter
                 (fun b => decide (sortKey b = k)))) ∧
       (¬ (events.filterMap (icsRecord today)).isEmpty = true →
          ∃ bins, parse_data_ics today events = Except.ok bins)) := by
  constructor
  · intro now services bins h
    obtain ⟨_, _, hbins⟩ := parse_data_html_ok h
    subst hbins
    refine ⟨sortRecs_pairwise _, ?_, sortRecs_filter _, ?_⟩
    · intro b hb
      rcases List.mem_filterMap.mp ((sortRecs_perm _).mem_iff.mp hb) with ⟨s, _, hrec⟩
      obtain ⟨bt, dd, _, hvalid, _, hr⟩ := processService_eq_some hrec
      subst hr
      exact ⟨dd, hvalid, rfl, readback_format dd hvalid⟩
    · unfold sortBins
      rw [if_pos html_bins_keys_parse]
  · intro today events hval
    constructor
    · intro bins h
      obtain ⟨_, hbins⟩ := parse_data_ics_ok h
      subst hbins
      refine ⟨sortRecs_pairwise _, ?_, sortRecs_filter _⟩
      intro b hb
      rcases List.mem_filterMap.mp ((sortRecs_perm _).mem_iff.mp hb) with ⟨e, he, hrec⟩
      obtain ⟨_, hr⟩ := icsRecord_eq_some hrec
      subst hr
      exact ⟨e.beginDate, hval e he, rfl, readback_format e.beginDate (hval e he)⟩
    · intro hne
      refine ⟨sortRecs (events.filterMap (icsRecord today)), ?_⟩
      unfold parse_data_ics
      rw [if_neg hne, if_pos (ics_bins_keys_parse hval)]

theorem c8_sorted_fixed_format_witness :
    List.Pairwise recLe
      ([⟨"A", "24/10/2025"⟩, ⟨"C", "24/10/2025"⟩, ⟨"B", "31/10/2025"⟩] : List Record) :=
  (c8_sorted_fixed_format.1 ⟨2025, 1, 1, 0⟩
    [⟨some "B", none, [⟨"Next collection: 31/10/2025", none⟩]⟩,
     ⟨some "A", none, [⟨"Next collection: 24/10/2025", none⟩]⟩,
     ⟨some "C", none, [⟨"Next collection: 24/10/2025", none⟩]⟩]
    [⟨"A", "24/10/2025"⟩, ⟨"C", "24/10/2025"⟩, ⟨"B", "31/10/2025"⟩] rfl).1

/-- Claim C10: every record the ICS variant emits stems from an event
dated on or after today, while the HTML variant applies no such filter:
a page date with an explicit year in the past is emitted as a record
whose collection date is strictly before today. -/
theorem c10_past_date_filtering :
    (∀ today events bins, parse_data_ics today events = Except.ok bins →
       ∀ b ∈ bins, ∃ e ∈ events, b.collectionDate = formatCollectionDate e.beginDate ∧
         dateLe today e.beginDate = true) ∧
    (parse_data_html ⟨2025, 10, 12, 0⟩
        [⟨some "Garden Waste", none, [⟨"Next collection: 24/10/2020", none⟩]⟩]
        = Except.ok [⟨"Garden Waste", "24/10/2020"⟩] ∧
     dateLt ⟨2020, 10, 24⟩ (dateOfNow ⟨2025, 10, 12, 0⟩) = true ∧
     readCollectionDate (⟨"Garden Waste", "24/10/2020"⟩ : Record).collectionDate
        = some ⟨2020, 10, 24⟩) := by
  constructor
  · intro today events bins h b hb
    obtain ⟨_, hbins⟩ := parse_data_ics_ok h
    subst hbins
    rcases List.mem_filterMap.mp ((sortRecs_perm _).mem_iff.mp hb) with ⟨e, he, hrec⟩
    obtain ⟨hle, hr⟩ := icsRecord_eq_some hrec
    exact ⟨e, he, by rw [hr], hle⟩
  · exact ⟨rfl, rfl, rfl⟩

theorem c10_past_date_filtering_witness :
    ∃ e ∈ ([⟨"Recycling collection", ⟨2025, 3, 10⟩⟩] : List Event),
      (⟨"Recycling", "10/03/2025"⟩ : Record).collectionDate
        = formatCollectionDate e.beginDate ∧
      dateLe ⟨2025, 3, 1⟩ e.beginDate = true :=
  c10_past_date_filtering.1 ⟨2025, 3, 1⟩ [⟨"Recycling collection", ⟨2025, 3, 10⟩⟩]
    [⟨"Recycling", "10/03/2025"⟩] rfl _ (List.mem_singleton.mpr rfl)
